/-
Verification of the PyGit prototype (src/main.py) against its
natural-language specification.

Modelling conventions (shallow embedding):
* Python `bytes` values are `List Nat`, each element < 256.
* Python `str` values are either Lean `String` (when only concatenation and
  comparison matter) or `List Nat` of Unicode code points (when the code
  indexes and splits the text, as the commit parser does).
* Python `float` timestamps are modelled as rationals `ℚ`; `int(x)` is
  truncation toward zero and `float(int(x))` is the cast back to `ℚ`.
* The filesystem is modelled as explicit state: the object store is an
  association list from the sharded object path to the stored bytes, and the
  repository directory is a record of directories and files.
* Exceptions are modelled with `Except PyErr`.
All definitions are structurally recursive so that concrete instances can be
settled by kernel evaluation (`decide` / `rfl`).
-/
import Mathlib

set_option maxRecDepth 100000

namespace PyGit

/-! ## Association-list filesystem primitives

`setKey` models `open(path, "wb")`: it overwrites the value stored at an
existing key, otherwise appends a new entry.  `lookupKV` models reading a
path, returning `none` when the file does not exist. -/

def setKey {α : Type} : List (String × α) → String → α → List (String × α)
  | [], k, v => [(k, v)]
  | (k', v') :: rest, k, v =>
      if k' = k then (k, v) :: rest else (k', v') :: setKey rest k v

def lookupKV {α : Type} : List (String × α) → String → Option α
  | [], _ => none
  | (k', v') :: rest, k => if k' = k then some v' else lookupKV rest k

theorem lookupKV_setKey_self {α : Type} (l : List (String × α)) (k : String) (v : α) :
    lookupKV (setKey l k v) k = some v := by
  induction l with
  | nil => simp [setKey, lookupKV]
  | cons hd tl ih =>
      obtain ⟨k', v'⟩ := hd
      by_cases h : k' = k <;> simp [setKey, lookupKV, h, ih]

theorem lookupKV_setKey_ne {α : Type} (l : List (String × α)) (k p : String) (v : α)
    (h : p ≠ k) : lookupKV (setKey l k v) p = lookupKV l p := by
  have hkp : k ≠ p := fun hh => h hh.symm
  induction l with
  | nil => simp [setKey, lookupKV, hkp]
  | cons hd tl ih =>
      obtain ⟨k', v'⟩ := hd
      by_cases hk : k' = k
      · subst hk
        simp [setKey, lookupKV, hkp]
      · by_cases hp : k' = p
        · subst hp
          simp [setKey, lookupKV, h, hk]
        · simp [setKey, lookupKV, hk, hp, ih]

theorem setKey_setKey_same {α : Type} (l : List (String × α)) (k : String) (v : α) :
    setKey (setKey l k v) k v = setKey l k v := by
  induction l with
  | nil => simp [setKey]
  | cons hd tl ih =>
      obtain ⟨k', v'⟩ := hd
      by_cases h : k' = k <;> simp [setKey, h, ih]

/-! ## Decimal rendering of natural numbers

Models Python's decimal formatting of a nonnegative integer, as used by the
f-strings `f"{len(content)}"` and `f"{int(commit.timestamp)}"`.  Written with
explicit fuel so that the kernel can evaluate it. -/

def natDecGo : Nat → Nat → List Nat
  | 0, _ => []
  | fuel + 1, n => if n < 10 then [48 + n] else natDecGo fuel (n / 10) ++ [48 + n % 10]

/-- Decimal ASCII digits (code points) of a natural number. -/
def natDec (n : Nat) : List Nat := natDecGo (n + 1) n

theorem natDecGo_fuel_irrel (fuel₁ : Nat) :
    ∀ fuel₂ n, n < fuel₁ → n < fuel₂ → natDecGo fuel₁ n = natDecGo fuel₂ n := by
  induction fuel₁ with
  | zero => intro fuel₂ n h; omega
  | succ f ih =>
      intro fuel₂ n h1 h2
      cases fuel₂ with
      | zero => omega
      | succ f₂ =>
          simp only [natDecGo]
          by_cases hn : n < 10
          · simp [hn]
          · have hd : n / 10 < f := by omega
            have hd₂ : n / 10 < f₂ := by omega
            simp [hn, ih f₂ (n / 10) hd hd₂]

theorem natDec_eq (n : Nat) :
    natDec n = if n < 10 then [48 + n] else natDec (n / 10) ++ [48 + n % 10] := by
  by_cases h : n < 10
  · simp [natDec, natDecGo, h]
  · have hstep : natDecGo (n + 1) n = natDecGo n (n / 10) ++ [48 + n % 10] := by
      simp only [natDecGo]
      simp [h]
    rw [natDec, hstep, natDecGo_fuel_irrel n (n / 10 + 1) (n / 10) (by omega) (by omega)]
    simp [h, natDec]

theorem natDec_digits (n : Nat) : ∀ b ∈ natDec n, 48 ≤ b ∧ b ≤ 57 := by
  induction n using Nat.strong_induction_on with
  | _ n ih =>
      intro b hb
      rw [natDec_eq] at hb
      by_cases h : n < 10
      · simp [h] at hb; omega
      · simp only [h, if_false, List.mem_append, List.mem_singleton] at hb
        rcases hb with hb | hb
        · exact ih (n / 10) (by omega) b hb
        · omega

theorem natDec_ne_nil (n : Nat) : natDec n ≠ [] := by
  rw [natDec_eq]
  by_cases h : n < 10 <;> simp [h]

/-! ## SHA-1

A complete executable model of the SHA-1 digest used by
`hashlib.sha1(...).hexdigest()`.  Machine words are `Nat` reduced modulo
`2 ^ 32` explicitly. -/

def w32 : Nat := 4294967296

def rotl (x n : Nat) : Nat := (((x <<< n) % w32) ||| (x >>> (32 - n)))

def not32 (x : Nat) : Nat := x ^^^ 4294967295

/-- Big-endian bytes (8 of them) of a 64-bit value. -/
def be64 (n : Nat) : List Nat :=
  (List.range 8).map (fun i => (n >>> (8 * (7 - i))) % 256)

/-- SHA-1 padding of a message given as a list of bytes. -/
def sha1Pad (msg : List Nat) : List Nat :=
  msg ++ [128] ++ List.replicate ((128 - (msg.length % 64) - 9) % 64) 0
      ++ be64 (8 * msg.length)

/-- Split a byte list into 64-byte blocks (fuel-based for kernel evaluation). -/
def blocksGo : Nat → List Nat → List (List Nat)
  | 0, _ => []
  | _ + 1, [] => []
  | fuel + 1, l => l.take 64 :: blocksGo fuel (l.drop 64)

def toBlocks (l : List Nat) : List (List Nat) := blocksGo l.length l

/-- 32-bit big-endian words of one 64-byte block. -/
def blockWords (blk : List Nat) : List Nat :=
  (List.range 16).map (fun i =>
    blk.getD (4 * i) 0 * 16777216 + blk.getD (4 * i + 1) 0 * 65536 +
    blk.getD (4 * i + 2) 0 * 256 + blk.getD (4 * i + 3) 0)

/-- Extend 16 words to the 80-word message schedule. -/
def extendWords (ws : List Nat) : List Nat :=
  (List.range 64).foldl
    (fun acc _ =>
      let n := acc.length
      acc ++ [rotl (acc.getD (n - 3) 0 ^^^ acc.getD (n - 8) 0 ^^^
                    acc.getD (n - 14) 0 ^^^ acc.getD (n - 16) 0) 1])
    ws

def sha1F (i b c d : Nat) : Nat :=
  if i < 20 then (b &&& c) ||| (not32 b &&& d)
  else if i < 40 then b ^^^ c ^^^ d
  else if i < 60 then (b &&& c) ||| (b &&& d) ||| (c &&& d)
  else b ^^^ c ^^^ d

def sha1K (i : Nat) : Nat :=
  if i < 20 then 1518500249
  else if i < 40 then 1859775393
  else if i < 60 then 2400959708
  else 3395469782

/-- One SHA-1 compression step over a single block. -/
def sha1Block (h : Nat × Nat × Nat × Nat × Nat) (blk : List Nat) :
    Nat × Nat × Nat × Nat × Nat :=
  let ws := extendWords (blockWords blk)
  let ⟨h0, h1, h2, h3, h4⟩ := h
  let r := (List.range 80).foldl
    (fun st i =>
      let ⟨a, b, c, d, e⟩ := st
      let temp := (rotl a 5 + sha1F i b c d + e + sha1K i + ws.getD i 0) % w32
      (temp, a, rotl b 30, c, d))
    (h0, h1, h2, h3, h4)
  ((h0 + r.1) % w32, (h1 + r.2.1) % w32, (h2 + r.2.2.1) % w32,
   (h3 + r.2.2.2.1) % w32, (h4 + r.2.2.2.2) % w32)

def hexDigitChar (d : Nat) : Char := Char.ofNat (if d < 10 then 48 + d else 87 + d)

/-- Lower-case hexadecimal rendering (8 digits) of a 32-bit word. -/
def hexWord (n : Nat) : List Char :=
  (List.range 8).map (fun i => hexDigitChar ((n >>> (4 * (7 - i))) % 16))

/-- `hashlib.sha1(msg).hexdigest()`. -/
def sha1Hex (msg : List Nat) : String :=
  let h := (toBlocks (sha1Pad msg)).foldl sha1Block
    (1732584193, 4023233417, 2562383102, 271733878, 3285377520)
  String.mk (hexWord h.1 ++ hexWord h.2.1 ++ hexWord h.2.2.1 ++
             hexWord h.2.2.2.1 ++ hexWord h.2.2.2.2)

/-- SHA-1 test vector: digest of `"abc"`. -/
example : sha1Hex [97, 98, 99] = "a9993e364706816aba3e25717850c26c9cd0d89d" := by decide

/-- SHA-1 test vector: digest of the empty message. -/
example : sha1Hex [] = "da39a3ee5e6b4b0d3255bfef95601890afd80709" := by decide

/-- SHA-1 test vector: a two-block message (100 bytes of `"a"`). -/
example : sha1Hex (List.replicate 100 97) = "7f9000257a4918d7072655ea468540cdcbd42e0c" := by
  decide

/-! ## Strings and UTF-8

`strCp` turns a Lean string literal into its list of Unicode code points;
`utf8Encode`/`utf8Decode` model Python's `str.encode()`/`bytes.decode()`. -/

/-- Code points of a string. -/
def strCp (s : String) : List Nat := s.data.map Char.toNat

/-- A Python string is a sequence of Unicode scalar values. -/
def ValidCp (c : Nat) : Prop := c < 1114112 ∧ ¬(55296 ≤ c ∧ c ≤ 57343)

instance (c : Nat) : Decidable (ValidCp c) := by unfold ValidCp; infer_instance

def utf8EncodeChar (c : Nat) : List Nat :=
  if c < 128 then [c]
  else if c < 2048 then [192 + c / 64, 128 + c % 64]
  else if c < 65536 then [224 + c / 4096, 128 + (c / 64) % 64, 128 + c % 64]
  else [240 + c / 262144, 128 + (c / 4096) % 64, 128 + (c / 64) % 64, 128 + c % 64]

/-- `str.encode()`: UTF-8 encoding of a list of code points. -/
def utf8Encode (l : List Nat) : List Nat := (l.map utf8EncodeChar).flatten

/-- Continuation byte sequence of a 2-byte UTF-8 character. -/
def decodeCont2 (b : Nat) : List Nat → Option (Nat × List Nat)
  | b1 :: r =>
      if 128 ≤ b1 ∧ b1 < 192 then some ((b - 192) * 64 + (b1 - 128), r) else none
  | [] => none

/-- Continuation byte sequence of a 3-byte UTF-8 character. -/
def decodeCont3 (b : Nat) : List Nat → Option (Nat × List Nat)
  | b1 :: b2 :: r =>
      if 128 ≤ b1 ∧ b1 < 192 ∧ 128 ≤ b2 ∧ b2 < 192 then
        let c := (b - 224) * 4096 + (b1 - 128) * 64 + (b2 - 128)
        if 2048 ≤ c ∧ ¬(55296 ≤ c ∧ c ≤ 57343) then some (c, r) else none
      else none
  | _ => none

/-- Continuation byte sequence of a 4-byte UTF-8 character. -/
def decodeCont4 (b : Nat) : List Nat → Option (Nat × List Nat)
  | b1 :: b2 :: b3 :: r =>
      if 128 ≤ b1 ∧ b1 < 192 ∧ 128 ≤ b2 ∧ b2 < 192 ∧ 128 ≤ b3 ∧ b3 < 192 then
        let c := (b - 240) * 262144 + (b1 - 128) * 4096 + (b2 - 128) * 64 + (b3 - 128)
        if 65536 ≤ c ∧ c < 1114112 then some (c, r) else none
      else none
  | _ => none

/-- Decode a single UTF-8 character at the head of a byte list, returning the
code point and the remaining bytes. -/
def decodeOne : List Nat → Option (Nat × List Nat)
  | [] => none
  | b :: r =>
      if b < 128 then some (b, r)
      else if b < 194 then none
      else if b < 224 then decodeCont2 b r
      else if b < 240 then decodeCont3 b r
      else if b < 245 then decodeCont4 b r
      else none

def utf8DecodeGo : Nat → List Nat → Option (List Nat)
  | _, [] => some []
  | 0, _ :: _ => none
  | fuel + 1, b :: r =>
      match decodeOne (b :: r) with
      | none => none
      | some (c, rest) => (utf8DecodeGo fuel rest).map (c :: ·)

/-- `bytes.decode()`: strict UTF-8 decoding, `none` on invalid input
(Python raises `UnicodeDecodeError`). -/
def utf8Decode (l : List Nat) : Option (List Nat) := utf8DecodeGo l.length l

theorem decodeOne_length {l rest : List Nat} {c : Nat}
    (h : decodeOne l = some (c, rest)) : rest.length < l.length := by
  match l with
  | [] => simp [decodeOne] at h
  | b :: r =>
      simp only [decodeOne] at h
      split_ifs at h with h1 h2 h3 h4 h5
      · cases h
        simp
      · match r with
        | [] => simp [decodeCont2] at h
        | b1 :: r' =>
            simp only [decodeCont2] at h
            split_ifs at h
            cases h
            simp
            omega
      · match r with
        | [] => simp [decodeCont3] at h
        | [b1] => simp [decodeCont3] at h
        | b1 :: b2 :: r' =>
            simp only [decodeCont3] at h
            split_ifs at h
            cases h
            simp
            omega
      · match r with
        | [] => simp [decodeCont4] at h
        | [b1] => simp [decodeCont4] at h
        | [b1, b2] => simp [decodeCont4] at h
        | b1 :: b2 :: b3 :: r' =>
            simp only [decodeCont4] at h
            split_ifs at h
            cases h
            simp
            omega

theorem utf8DecodeGo_congr : ∀ f₁ f₂ l, l.length ≤ f₁ → l.length ≤ f₂ →
    utf8DecodeGo f₁ l = utf8DecodeGo f₂ l := by
  intro f₁
  induction f₁ with
  | zero =>
      intro f₂ l h1 _
      match l with
      | [] => cases f₂ <;> rfl
      | b :: r => simp at h1
  | succ f ih =>
      intro f₂ l h1 h2
      match l with
      | [] => cases f₂ <;> rfl
      | b :: r =>
          match f₂ with
          | 0 => simp at h2
          | f₂' + 1 =>
              simp only [utf8DecodeGo]
              match hd : decodeOne (b :: r) with
              | none => rfl
              | some (c, rest) =>
                  have hlen := decodeOne_length hd
                  simp only [ih f₂' rest (by simp at h1 hlen ⊢; omega)
                    (by simp at h2 hlen ⊢; omega)]

theorem utf8Encode_nil : utf8Encode [] = [] := rfl

theorem utf8Encode_cons (c : Nat) (l : List Nat) :
    utf8Encode (c :: l) = utf8EncodeChar c ++ utf8Encode l := by
  simp [utf8Encode]

theorem utf8Encode_append (l₁ l₂ : List Nat) :
    utf8Encode (l₁ ++ l₂) = utf8Encode l₁ ++ utf8Encode l₂ := by
  simp [utf8Encode]

theorem utf8Decode_nil : utf8Decode [] = some [] := rfl

/-- Unfolding `utf8Decode` by one decoded character. -/
theorem utf8Decode_cons {l rest : List Nat} {c : Nat}
    (h : decodeOne l = some (c, rest)) :
    utf8Decode l = (utf8Decode rest).map (c :: ·) := by
  match l with
  | [] => simp [decodeOne] at h
  | b :: r =>
      have hlen : rest.length < r.length + 1 := by
        have := decodeOne_length h
        simpa using this
      show utf8DecodeGo (r.length + 1) (b :: r) = _
      simp only [utf8DecodeGo, h]
      rw [utf8DecodeGo_congr r.length rest.length rest (by omega) (by omega)]
      rfl

/-- Decoding one character undoes encoding one character. -/
theorem decodeOne_encodeChar (c : Nat) (r : List Nat) (hc : ValidCp c) :
    decodeOne (utf8EncodeChar c ++ r) = some (c, r) := by
  obtain ⟨hlt, hsur⟩ := hc
  by_cases h1 : c < 128
  · simp [utf8EncodeChar, h1, decodeOne]
  · by_cases h2 : c < 2048
    · have d1 : ¬(192 + c / 64 < 128) := by omega
      have d2 : ¬(192 + c / 64 < 194) := by omega
      have d3 : 192 + c / 64 < 224 := by omega
      have hb : 128 ≤ 128 + c % 64 ∧ 128 + c % 64 < 192 := by omega
      have hcv : (192 + c / 64 - 192) * 64 + (128 + c % 64 - 128) = c := by omega
      simp [utf8EncodeChar, h1, h2, decodeOne, d1, d2, d3, decodeCont2, hb, hcv]
      omega
    · by_cases h3 : c < 65536
      · have m2 : c / 64 / 64 * 64 + c / 64 % 64 = c / 64 := by omega
        have m3 : c / 64 / 64 = c / 4096 := by rw [Nat.div_div_eq_div_mul]
        have d1 : ¬(224 + c / 4096 < 128) := by omega
        have d2 : ¬(224 + c / 4096 < 194) := by omega
        have d3 : ¬(224 + c / 4096 < 224) := by omega
        have d4 : 224 + c / 4096 < 240 := by omega
        have hb : 128 ≤ 128 + c / 64 % 64 ∧ 128 + c / 64 % 64 < 192 ∧
            128 ≤ 128 + c % 64 ∧ 128 + c % 64 < 192 := by omega
        have hcv : (224 + c / 4096 - 224) * 4096 + (128 + c / 64 % 64 - 128) * 64 +
            (128 + c % 64 - 128) = c := by omega
        simp only [utf8EncodeChar, h1, h2, h3, if_true, if_false, List.cons_append,
          List.nil_append, decodeOne, d1, d2, d3, d4, decodeCont3, hb.1, hb.2.1,
          hb.2.2.1, hb.2.2.2, and_self, and_true, if_true, true_and, hcv]
        have hval : 2048 ≤ c ∧ ¬(55296 ≤ c ∧ c ≤ 57343) := ⟨by omega, hsur⟩
        simp [hval, hsur, h2]
      · have m3 : c / 64 / 64 = c / 4096 := by rw [Nat.div_div_eq_div_mul]
        have m4 : c / 4096 / 64 * 64 + c / 4096 % 64 = c / 4096 := by omega
        have m5 : c / 4096 / 64 = c / 262144 := by rw [Nat.div_div_eq_div_mul]
        have d1 : ¬(240 + c / 262144 < 128) := by omega
        have d2 : ¬(240 + c / 262144 < 194) := by omega
        have d3 : ¬(240 + c / 262144 < 224) := by omega
        have d4 : ¬(240 + c / 262144 < 240) := by omega
        have d5 : 240 + c / 262144 < 245 := by omega
        have hb : 128 ≤ 128 + c / 4096 % 64 ∧ 128 + c / 4096 % 64 < 192 ∧
            128 ≤ 128 + c / 64 % 64 ∧ 128 + c / 64 % 64 < 192 ∧
            128 ≤ 128 + c % 64 ∧ 128 + c % 64 < 192 := by omega
        have hcv : (240 + c / 262144 - 240) * 262144 + (128 + c / 4096 % 64 - 128) * 4096 +
            (128 + c / 64 % 64 - 128) * 64 + (128 + c % 64 - 128) = c := by omega
        simp only [utf8EncodeChar, h1, h2, h3, if_false, List.cons_append,
          List.nil_append, decodeOne, d1, d2, d3, d4, d5, decodeCont4, hb.1, hb.2.1,
          hb.2.2.1, hb.2.2.2.1, hb.2.2.2.2.1, hb.2.2.2.2.2, and_self, and_true,
          if_true, true_and, hcv]
        have hval : 65536 ≤ c ∧ c < 1114112 := ⟨by omega, hlt⟩
        simp [hval]

/-- Strict UTF-8 decoding undoes encoding on any sequence of Unicode scalar
values. -/
theorem utf8Decode_encode (l : List Nat) (h : ∀ c ∈ l, ValidCp c) :
    utf8Decode (utf8Encode l) = some l := by
  induction l with
  | nil => rfl
  | cons c rest ih =>
      have hrest := ih (fun x hx => h x (List.mem_cons_of_mem _ hx))
      rw [utf8Encode_cons,
        utf8Decode_cons (decodeOne_encodeChar c (utf8Encode rest)
          (h c (List.mem_cons_self _ _))), hrest]
      rfl

/-- On pure ASCII byte lists, UTF-8 encoding is the identity. -/
theorem utf8Encode_ascii (l : List Nat) (h : ∀ b ∈ l, b < 128) :
    utf8Encode l = l := by
  induction l with
  | nil => rfl
  | cons b rest ih =>
      rw [utf8Encode_cons, ih (fun x hx => h x (List.mem_cons_of_mem _ hx))]
      simp [utf8EncodeChar, h b (List.mem_cons_self _ _)]

/-- On pure ASCII byte lists, UTF-8 decoding is the identity. -/
theorem utf8Decode_ascii (l : List Nat) (h : ∀ b ∈ l, b < 128) :
    utf8Decode l = some l := by
  induction l with
  | nil => rfl
  | cons b rest ih =>
      have hb : decodeOne (b :: rest) = some (b, rest) := by
        simp [decodeOne, h b (List.mem_cons_self _ _)]
      rw [utf8Decode_cons hb, ih (fun x hx => h x (List.mem_cons_of_mem _ hx))]
      rfl

/-! ## Error kinds

Exception kinds raised by the program.  `pygitError` covers the domain
exceptions the code raises as `PyGitError`; the other constructors model
uncaught built-in Python exceptions. -/

inductive PyErr : Type where
  | objectNotFound : PyErr
  | invalidObjectFormat : PyErr
  | branchNotFound : PyErr
  | notARepository : PyErr
  | notACommit : PyErr
  | indexError : PyErr
  | valueError : PyErr
  | attributeError : PyErr
  | typeError : PyErr
  | unicodeDecodeError : PyErr
  deriving DecidableEq, Repr

instance {ε α : Type} [DecidableEq ε] [DecidableEq α] :
    DecidableEq (Except ε α) := fun a b =>
  match a, b with
  | .error e, .error e' =>
      if h : e = e' then isTrue (by rw [h])
      else isFalse (fun hh => by cases hh; exact h rfl)
  | .ok v, .ok v' =>
      if h : v = v' then isTrue (by rw [h])
      else isFalse (fun hh => by cases hh; exact h rfl)
  | .error _, .ok _ => isFalse (fun hh => by cases hh)
  | .ok _, .error _ => isFalse (fun hh => by cases hh)

/-! ## Object store (`ObjectStore` in src/main.py)

The on-disk object directory is modelled as an association list from the
sharded relative path `hash[:2] ++ "/" ++ hash[2:]` to the stored bytes. -/

/-- `ObjectStore._get_object_path`: shard a hex digest into directory and
file name (`hash_str[:2]` / `hash_str[2:]`). -/
def objPath (h : String) : String :=
  String.mk (h.data.take 2) ++ "/" ++ String.mk (h.data.drop 2)

/-- The object directory: sharded path ↦ file bytes. -/
def Store : Type := List (String × List Nat)

/-- The header `f"{obj_type} {len(content)}\0".encode()`. -/
def objectHeader (t : String) (n : Nat) : List Nat :=
  utf8Encode (strCp t ++ [32] ++ natDec n ++ [0])

/-- The hash computed by `ObjectStore.store_object`:
`hashlib.sha1(header + content).hexdigest()`. -/
def storeHash (content : List Nat) (t : String) : String :=
  sha1Hex (objectHeader t content.length ++ content)

/-- `ObjectStore.store_object`: store an object, returning its hash and the
updated object directory. -/
def storeObject (st : Store) (content : List Nat) (t : String) : String × Store :=
  let h := storeHash content t
  (h, setKey st (objPath h) (objectHeader t content.length ++ content))

/-- Split a byte list at the first occurrence of `sep`
(`content.find(sep)` followed by slicing). -/
def splitFirst (sep : Nat) : List Nat → Option (List Nat × List Nat)
  | [] => none
  | b :: rest =>
      if b = sep then some ([], rest)
      else (splitFirst sep rest).map (fun p => (b :: p.1, p.2))

theorem splitFirst_append (sep : Nat) (A B : List Nat) (h : sep ∉ A) :
    splitFirst sep (A ++ sep :: B) = some (A, B) := by
  induction A with
  | nil => simp [splitFirst]
  | cons a rest ih =>
      have ha : a ≠ sep := fun hh => h (hh ▸ List.mem_cons_self _ _)
      simp only [List.cons_append, splitFirst, ha, if_false, List.append_eq,
        ih (fun hh => h (List.mem_cons_of_mem _ hh))]
      rfl

/-- Python whitespace, as recognised by `str.split()` and `str.strip()`
(modelled for the ASCII range). -/
def isPyWs (b : Nat) : Bool := b = 32 || b = 9 || b = 10 || b = 13 || b = 11 || b = 12

/-- `header.split()[0]`: first whitespace-separated token, `none` when the
string has no token (Python raises `IndexError`). -/
def firstToken (l : List Nat) : Option (List Nat) :=
  let t := (l.dropWhile isPyWs).takeWhile (fun b => !isPyWs b)
  if t = [] then none else some t

theorem takeWhile_token (X Y : List Nat) (hX : ∀ b ∈ X, isPyWs b = false) :
    (X ++ 32 :: Y).takeWhile (fun b => !isPyWs b) = X := by
  induction X with
  | nil => simp [List.takeWhile, isPyWs]
  | cons x xs ih =>
      have hx : isPyWs x = false := hX x (List.mem_cons_self _ _)
      simp only [List.cons_append, List.takeWhile, hx, List.append_eq]
      simp [ih (fun b hb => hX b (List.mem_cons_of_mem _ hb))]

theorem firstToken_append (X Y : List Nat) (hX : ∀ b ∈ X, isPyWs b = false)
    (hne : X ≠ []) : firstToken (X ++ 32 :: Y) = some X := by
  match X with
  | [] => exact absurd rfl hne
  | x :: xs =>
      have hx : isPyWs x = false := hX x (List.mem_cons_self _ _)
      have hdrop : (x :: xs ++ 32 :: Y).dropWhile isPyWs = x :: xs ++ 32 :: Y := by
        simp [List.dropWhile, hx]
      simp only [firstToken, hdrop, takeWhile_token _ _ hX]
      simp

/-- `ObjectStore.get_object`: read the record at the sharded path, split at
the first NUL, decode the header, take its first token as the type. -/
def getObject (st : Store) (h : String) : Except PyErr (List Nat × List Nat) :=
  match lookupKV st (objPath h) with
  | none => .error .objectNotFound
  | some bytes =>
      match splitFirst 0 bytes with
      | none => .error .invalidObjectFormat
      | some (hdr, rest) =>
          match utf8Decode hdr with
          | none => .error .unicodeDecodeError
          | some cps =>
              match firstToken cps with
              | none => .error .indexError
              | some tok => .ok (tok, rest)

/-- A well-formed object type tag: nonempty, and made of non-whitespace,
non-NUL ASCII bytes.  The three tags `blob`, `tree`, `commit` satisfy it. -/
def GoodTag (T : String) : Prop :=
  strCp T ≠ [] ∧ ∀ b ∈ strCp T, isPyWs b = false ∧ b ≠ 0 ∧ b < 128

instance (T : String) : Decidable (GoodTag T) := by unfold GoodTag; infer_instance

theorem goodTag_blob : GoodTag "blob" := by decide
theorem goodTag_tree : GoodTag "tree" := by decide
theorem goodTag_commit : GoodTag "commit" := by decide

/-- For a well-formed tag, the stored header bytes are literally
`type ++ " " ++ decimal-length ++ NUL` (the UTF-8 encoding is the
identity on them). -/
theorem objectHeader_ascii (T : String) (n : Nat) (hT : GoodTag T) :
    objectHeader T n = strCp T ++ [32] ++ natDec n ++ [0] := by
  apply utf8Encode_ascii
  intro b hb
  simp only [List.append_assoc, List.mem_append, List.mem_singleton] at hb
  rcases hb with hb | hb | hb | hb
  · exact (hT.2 b hb).2.2
  · omega
  · have := natDec_digits n b hb
    omega
  · omega

/-- Reading back a freshly stored object recovers the type tag and the
content exactly, for any content (NUL bytes included). -/
theorem store_get_roundtrip (st : Store) (C : List Nat) (T : String) (hT : GoodTag T) :
    getObject (storeObject st C T).2 (storeObject st C T).1 = .ok (strCp T, C) := by
  obtain ⟨hne, hbytes⟩ := hT
  have hdr := objectHeader_ascii T C.length ⟨hne, hbytes⟩
  have hsplit : splitFirst 0 (objectHeader T C.length ++ C) =
      some (strCp T ++ 32 :: natDec C.length, C) := by
    rw [hdr]
    have : strCp T ++ [32] ++ natDec C.length ++ [0] ++ C =
        (strCp T ++ 32 :: natDec C.length) ++ 0 :: C := by simp
    rw [this]
    apply splitFirst_append
    intro hmem
    simp only [List.mem_append, List.mem_cons] at hmem
    rcases hmem with hmem | hmem | hmem
    · exact (hbytes 0 hmem).2.1 rfl
    · omega
    · have := natDec_digits C.length 0 hmem
      omega
  have hdec : utf8Decode (strCp T ++ 32 :: natDec C.length) =
      some (strCp T ++ 32 :: natDec C.length) := by
    apply utf8Decode_ascii
    intro b hb
    simp only [List.mem_append, List.mem_cons] at hb
    rcases hb with hb | hb | hb
    · exact (hbytes b hb).2.2
    · omega
    · have := natDec_digits C.length b hb
      omega
  have htok : firstToken (strCp T ++ 32 :: natDec C.length) = some (strCp T) :=
    firstToken_append _ _ (fun b hb => (hbytes b hb).1) hne
  simp only [storeObject, getObject, lookupKV_setKey_self, hsplit, hdec, htok]

/-- C1 concrete check: the hash of blob `"hello"` against an independently
computed SHA-1 digest. -/
theorem storeHash_hello :
    storeHash (strCp "hello") "blob" = "b6fc4c620b67d95f953a5c1c1230aaab5db5a1b0" := by
  decide

/-- C1: the hash returned by `store_object` is exactly the SHA-1 hex digest
of the header `"<type> <len>\0"` concatenated with the content; in
particular storing blob content `"hello"` yields `sha1("blob 5\0hello")`,
which is the independently computed digest
`b6fc4c620b67d95f953a5c1c1230aaab5db5a1b0`. -/
theorem store_object_hash_is_sha1_of_header_content
    (st : Store) (content : List Nat) (t : String) :
    (storeObject st content t).1 =
      sha1Hex (utf8Encode (strCp (t ++ " ")) ++ utf8Encode (natDec content.length)
        ++ [0] ++ content) ∧
    (storeObject st (strCp "hello") "blob").1 =
      sha1Hex (utf8Encode (strCp "blob 5") ++ [0] ++ strCp "hello") ∧
    (storeObject st (strCp "hello") "blob").1 =
      "b6fc4c620b67d95f953a5c1c1230aaab5db5a1b0" := by
  refine ⟨?_,
    show storeHash (strCp "hello") "blob" = _ by decide,
    show storeHash (strCp "hello") "blob" = _ by decide⟩
  show storeHash content t = _
  unfold storeHash objectHeader
  congr 1
  have hdata : strCp (t ++ " ") = strCp t ++ [32] := by
    simp only [strCp, String.data_append, List.map_append]
    rfl
  rw [hdata, utf8Encode_append, utf8Encode_append, utf8Encode_append]
  have h32 : utf8Encode [32] = [32] := rfl
  have h0 : utf8Encode [0] = [0] := rfl
  simp [h32, h0]

/-- C2: storing `(C, T)` and reading the hash back with `get_object`
yields exactly `(T, C)`, for every byte content `C` — including content
containing NUL bytes — and every object type tag `T`. -/
theorem store_then_get_roundtrip (C : List Nat) (T : String)
    (hT : T = "blob" ∨ T = "tree" ∨ T = "commit") (st : Store) :
    getObject (storeObject st C T).2 (storeObject st C T).1 = .ok (strCp T, C) := by
  rcases hT with h | h | h <;> subst h
  · exact store_get_roundtrip st C _ goodTag_blob
  · exact store_get_roundtrip st C _ goodTag_tree
  · exact store_get_roundtrip st C _ goodTag_commit

/-- Witness for C2 at a content containing a NUL byte. -/
theorem store_then_get_roundtrip_witness :
    (("blob" : String) = "blob" ∨ ("blob" : String) = "tree" ∨
      ("blob" : String) = "commit") ∧
    getObject (storeObject [] [104, 0, 105] "blob").2
        (storeObject [] [104, 0, 105] "blob").1 =
      .ok (strCp "blob", [104, 0, 105]) :=
  ⟨Or.inl rfl, store_then_get_roundtrip [104, 0, 105] "blob" (Or.inl rfl) []⟩

/-- C5: `store_object` is idempotent and deduplicating: a second store of
the same `(content, type)` returns the same hash, writes the same sharded
path, and leaves the object directory exactly as after the first store,
raising no error; the stored bytes are header-plus-content. -/
theorem store_object_idempotent (st : Store) (C : List Nat) (T : String) :
    (storeObject (storeObject st C T).2 C T).1 = (storeObject st C T).1 ∧
    objPath (storeObject (storeObject st C T).2 C T).1 =
      objPath (storeObject st C T).1 ∧
    (storeObject (storeObject st C T).2 C T).2 = (storeObject st C T).2 ∧
    lookupKV (storeObject st C T).2 (objPath (storeObject st C T).1) =
      some (objectHeader T C.length ++ C) := by
  refine ⟨rfl, rfl, ?_, ?_⟩
  · simp [storeObject, setKey_setKey_same]
  · simp [storeObject, lookupKV_setKey_self]

/-! ## Python integers and floats

Timestamps are Python floats, modelled as rationals.  `pyInt` is `int(x)`
(truncation toward zero); `intDec` is decimal formatting of an integer;
`pyFloat` is `float(s)` on the optionally-signed integer strings this
program produces. -/

/-- `int(x)` on a float: truncation toward zero. -/
def pyInt (q : ℚ) : ℤ := q.num.tdiv q.den

/-- Decimal code points of an integer, as `f"{z}"` renders it. -/
def intDec (z : ℤ) : List Nat :=
  if z < 0 then 45 :: natDec z.natAbs else natDec z.natAbs

/-- Parse an unsigned decimal numeral. -/
def parseNat (l : List Nat) : Option Nat :=
  if l = [] then none
  else if l.all (fun b => 48 ≤ b && b ≤ 57) then
    some (l.foldl (fun a b => a * 10 + (b - 48)) 0)
  else none

/-- `float(s)` restricted to optionally-signed integer numerals (the only
shape this program feeds it). -/
def pyFloat (l : List Nat) : Option ℚ :=
  if l.head? = some 45 then (parseNat l.tail).map (fun n => -(n : ℚ))
  else (parseNat l).map (fun n => (n : ℚ))

theorem natDec_foldl (n : Nat) : ∀ acc : Nat,
    (natDec n).foldl (fun a b => a * 10 + (b - 48)) acc =
      acc * 10 ^ (natDec n).length + n := by
  induction n using Nat.strong_induction_on with
  | _ n ih =>
      intro acc
      rw [natDec_eq]
      by_cases h : n < 10
      · simp [h]
      · simp only [h, if_false, List.foldl_append, List.foldl_cons, List.foldl_nil,
          List.length_append, List.length_cons, List.length_nil]
        rw [ih (n / 10) (by omega) acc]
        have hp : 10 ^ ((natDec (n / 10)).length + (0 + 1)) =
            10 ^ (natDec (n / 10)).length * 10 := by
          rw [pow_succ]
        rw [hp]
        have : acc * 10 ^ (natDec (n / 10)).length * 10 =
            acc * (10 ^ (natDec (n / 10)).length * 10) := by ring
        omega

theorem parseNat_natDec (n : Nat) : parseNat (natDec n) = some n := by
  have hne := natDec_ne_nil n
  have hdig : (natDec n).all (fun b => 48 ≤ b && b ≤ 57) = true := by
    rw [List.all_eq_true]
    intro b hb
    have := natDec_digits n b hb
    simp
    omega
  simp only [parseNat, hne, if_false, hdig, if_true]
  rw [natDec_foldl n 0]
  simp

theorem natDec_head_digit (n : Nat) : ∃ b bs, natDec n = b :: bs ∧ 48 ≤ b ∧ b ≤ 57 := by
  match h : natDec n with
  | [] => exact absurd h (natDec_ne_nil n)
  | b :: bs =>
      have := natDec_digits n b (h ▸ List.mem_cons_self b bs)
      exact ⟨b, bs, rfl, this.1, this.2⟩

/-- Parsing a rendered integer back with `float` gives the integer as a
rational, exactly. -/
theorem pyFloat_intDec (z : ℤ) : pyFloat (intDec z) = some (z : ℚ) := by
  obtain ⟨b, bs, hd, hb1, hb2⟩ := natDec_head_digit z.natAbs
  by_cases hz : z < 0
  · have habs : (z.natAbs : ℚ) = -(z : ℚ) := by
      rw [Int.cast_natAbs, Int.cast_abs]
      exact abs_of_neg (by exact_mod_cast hz)
    rw [intDec, if_pos hz]
    have hstep : pyFloat (45 :: natDec z.natAbs) =
        (parseNat (natDec z.natAbs)).map (fun n => -(n : ℚ)) := by
      simp [pyFloat]
    rw [hstep, parseNat_natDec]
    simp [habs]
  · have habs : (z.natAbs : ℚ) = (z : ℚ) := by
      rw [Int.cast_natAbs, Int.cast_abs]
      exact abs_of_nonneg (by exact_mod_cast not_lt.mp hz)
    rw [intDec, if_neg hz]
    have hstep : pyFloat (natDec z.natAbs) =
        (parseNat (natDec z.natAbs)).map (fun n => (n : ℚ)) := by
      rw [pyFloat, if_neg]
      rw [hd]
      simp only [List.head?, Option.some.injEq]
      omega
    rw [hstep, parseNat_natDec]
    simp [habs]

/-! ## Staging index entries and the tree builder
(`FileEntry`, `TreeEntry`, `Repository._create_tree` in src/main.py)

The staged map is a Python dict, modelled as an association list in
insertion order. -/

/-- `FileEntry` dataclass: one staged file. -/
structure FileEntry : Type where
  path : String
  hash : String
  mode : String
  size : Nat
  mtime : ℚ
  deriving DecidableEq, Repr

/-- `TreeEntry` dataclass: one entry of a tree object. -/
structure TreeEntry : Type where
  mode : String
  name : String
  hash : String
  type : String
  deriving DecidableEq, Repr

/-- `os.path.basename`: the part of a POSIX path after the last slash. -/
def basename (s : String) : String :=
  String.mk (s.data.foldl (fun acc c => if c = '/' then [] else acc ++ [c]) [])

/-- The `TreeEntry` built from one staged `(path, entry)` pair in
`_create_tree`. -/
def toTreeEntry (pe : String × FileEntry) : TreeEntry :=
  ⟨pe.2.mode, basename pe.1, pe.2.hash, "blob"⟩

/-- Python's `<` on strings: lexicographic comparison of code points. -/
def lexLt : List Nat → List Nat → Bool
  | [], [] => false
  | [], _ :: _ => true
  | _ :: _, [] => false
  | a :: as, b :: bs => if a < b then true else if b < a then false else lexLt as bs

/-- Python's `<=` on strings. -/
def lexLe (a b : List Nat) : Bool := !lexLt b a

theorem lexLt_irrefl (a : List Nat) : lexLt a a = false := by
  induction a with
  | nil => rfl
  | cons x xs ih => simp [lexLt, ih]

theorem lexLt_trans : ∀ a b c : List Nat,
    lexLt a b = true → lexLt b c = true → lexLt a c = true := by
  intro a
  induction a with
  | nil =>
      intro b c hab hbc
      cases b with
      | nil => simp [lexLt] at hab
      | cons y ys =>
          cases c with
          | nil => simp [lexLt] at hbc
          | cons z zs => rfl
  | cons x xs ih =>
      intro b c hab hbc
      match b, c with
      | [], _ => simp [lexLt] at hab
      | _ :: _, [] => simp [lexLt] at hbc
      | y :: ys, z :: zs =>
          simp only [lexLt] at hab hbc ⊢
          by_cases hxy : x < y
          · by_cases hyz : y < z
            · simp [show x < z by omega]
            · by_cases hzy : z < y
              · simp [hyz, hzy] at hbc
              · have : y = z := by omega
                subst this
                simp [hxy]
          · by_cases hyx : y < x
            · simp [hxy, hyx] at hab
            · have hxyeq : x = y := by omega
              subst hxyeq
              simp only [hxy, lexLt_irrefl, if_false] at hab ⊢
              by_cases hyz : x < z
              · simp [hyz]
              · by_cases hzy : z < x
                · simp [hyz, hzy] at hbc
                · simp only [hyz, hzy, if_false] at hbc ⊢
                  exact ih ys zs (by simpa using hab) (by simpa using hbc)

theorem lexLt_trichotomy : ∀ a b : List Nat,
    lexLt a b = true ∨ a = b ∨ lexLt b a = true := by
  intro a
  induction a with
  | nil =>
      intro b
      cases b with
      | nil => exact Or.inr (Or.inl rfl)
      | cons y ys => exact Or.inl rfl
  | cons x xs ih =>
      intro b
      cases b with
      | nil => exact Or.inr (Or.inr rfl)
      | cons y ys =>
          by_cases hxy : x < y
          · left; simp [lexLt, hxy]
          · by_cases hyx : y < x
            · right; right; simp [lexLt, hyx]
            · have : x = y := by omega
              subst this
              rcases ih ys with h | h | h
              · left; simp [lexLt, h]
              · right; left; rw [h]
              · right; right; simp [lexLt, h]

theorem lexLt_asymm {a b : List Nat} (h : lexLt a b = true) : lexLt b a = false := by
  by_contra hc
  have hba : lexLt b a = true := by
    cases hh : lexLt b a
    · exact absurd hh hc
    · rfl
  have := lexLt_trans a b a h hba
  rw [lexLt_irrefl] at this
  cases this

theorem lexLe_total (a b : List Nat) : lexLe a b = true ∨ lexLe b a = true := by
  rcases lexLt_trichotomy a b with h | h | h
  · left; simp [lexLe, lexLt_asymm h]
  · left; simp [lexLe, h, lexLt_irrefl]
  · right; simp [lexLe, lexLt_asymm h]

theorem lexLe_trans {a b c : List Nat} (hab : lexLe a b = true)
    (hbc : lexLe b c = true) : lexLe a c = true := by
  simp only [lexLe, Bool.not_eq_true'] at hab hbc ⊢
  by_contra hc
  have hca : lexLt c a = true := by
    cases hh : lexLt c a
    · exact absurd hh hc
    · rfl
  rcases lexLt_trichotomy c b with h | h | h
  · rw [h] at hbc; cases hbc
  · have hba : lexLt b a = true := h ▸ hca
    rw [hba] at hab; cases hab
  · rw [lexLt_trans b c a h hca] at hab; cases hab

/-- The comparison used by `tree_entries.sort(key=lambda x: x.name)`. -/
def nameLe (a b : TreeEntry) : Bool := lexLe (strCp a.name) (strCp b.name)

/-- Stable insertion for the ascending sort by `name`
(`tree_entries.sort(key=lambda x: x.name)`). -/
def insertByName (e : TreeEntry) : List TreeEntry → List TreeEntry
  | [] => [e]
  | f :: fs => if nameLe e f then e :: f :: fs else f :: insertByName e fs

/-- Stable ascending sort by `name`: any stable sort (such as Python's)
produces this list. -/
def sortByName (l : List TreeEntry) : List TreeEntry := l.foldr insertByName []

/-- The sorted tree-entry list `_create_tree` builds from the staged map. -/
def treeEntries (staged : List (String × FileEntry)) : List TreeEntry :=
  sortByName (staged.map toTreeEntry)

/-- One serialized record `f"{entry.mode} {entry.name}\0{entry.hash}\n"`. -/
def recordStr (e : TreeEntry) : String :=
  e.mode ++ " " ++ e.name ++ "\x00" ++ e.hash ++ "\n"

/-- The serialization loop of `_create_tree` (string accumulation). -/
def serializeTree (entries : List TreeEntry) : String :=
  entries.foldl (fun acc e => acc ++ recordStr e) ""

/-- `Repository._create_tree`: build, sort and serialize the tree entries,
then store the buffer as a `tree` object. -/
def createTree (st : Store) (staged : List (String × FileEntry)) : String × Store :=
  storeObject st (utf8Encode (strCp (serializeTree (treeEntries staged)))) "tree"

theorem insertByName_perm (e : TreeEntry) (l : List TreeEntry) :
    (insertByName e l).Perm (e :: l) := by
  induction l with
  | nil => simp [insertByName]
  | cons f fs ih =>
      by_cases h : nameLe e f = true
      · simp [insertByName, h]
      · simp only [insertByName, h, if_false]
        exact ((ih.cons f).trans (List.Perm.swap e f fs))

theorem sortByName_perm (l : List TreeEntry) : (sortByName l).Perm l := by
  induction l with
  | nil => simp [sortByName]
  | cons e rest ih =>
      have : sortByName (e :: rest) = insertByName e (sortByName rest) := rfl
      rw [this]
      exact (insertByName_perm e (sortByName rest)).trans (ih.cons e)

theorem insertByName_pairwise (e : TreeEntry) (l : List TreeEntry)
    (h : l.Pairwise (fun a b => nameLe a b = true)) :
    (insertByName e l).Pairwise (fun a b => nameLe a b = true) := by
  induction l with
  | nil => simp [insertByName]
  | cons f fs ih =>
      rcases List.pairwise_cons.mp h with ⟨hf, hfs⟩
      by_cases hle : nameLe e f = true
      · simp only [insertByName, hle, if_true]
        refine List.pairwise_cons.mpr ⟨?_, h⟩
        intro x hx
        rcases List.mem_cons.mp hx with hx | hx
        · exact hx ▸ hle
        · exact lexLe_trans hle (hf x hx)
      · have hlt : nameLe f e = true :=
          (lexLe_total (strCp e.name) (strCp f.name)).resolve_left hle
        simp only [insertByName, hle, if_false]
        refine List.pairwise_cons.mpr ⟨?_, ih hfs⟩
        intro x hx
        have := (insertByName_perm e fs).mem_iff.mp hx
        rcases List.mem_cons.mp this with hx' | hx'
        · exact hx' ▸ hlt
        · exact hf x hx'

theorem sortByName_pairwise (l : List TreeEntry) :
    (sortByName l).Pairwise (fun a b => nameLe a b = true) := by
  induction l with
  | nil => simp [sortByName]
  | cons e rest ih => exact insertByName_pairwise e (sortByName rest) ih

instance : IsAntisymm TreeEntry
    (fun a b => lexLt (strCp a.name) (strCp b.name) = true) :=
  ⟨fun _ _ h1 h2 => absurd h1 (by rw [lexLt_asymm h2]; exact Bool.false_ne_true)⟩

theorem strCp_inj {a b : String} (h : strCp a = strCp b) : a = b := by
  apply String.ext
  have hinj : Function.Injective Char.toNat := by
    intro c₁ c₂ hc
    exact Char.ext (UInt32.ext (by simpa [Char.toNat] using hc))
  exact List.map_injective_iff.mpr hinj h

/-- A name-sorted entry list with pairwise-distinct names is uniquely
determined by its multiset of entries. -/
theorem sorted_nodup_eq (l₁ l₂ : List TreeEntry) (hp : l₁.Perm l₂)
    (hs₁ : l₁.Pairwise (fun a b => nameLe a b = true))
    (hs₂ : l₂.Pairwise (fun a b => nameLe a b = true))
    (hn : (l₁.map TreeEntry.name).Nodup) : l₁ = l₂ := by
  have hn₂ : (l₂.map TreeEntry.name).Nodup := ((hp.map TreeEntry.name).nodup_iff).mp hn
  have hne₁ : l₁.Pairwise (fun a b => a.name ≠ b.name) := (List.pairwise_map.mp hn)
  have hne₂ : l₂.Pairwise (fun a b => a.name ≠ b.name) := (List.pairwise_map.mp hn₂)
  have strict : ∀ a b : TreeEntry, nameLe a b = true → a.name ≠ b.name →
      lexLt (strCp a.name) (strCp b.name) = true := by
    intro a b hab hne
    rcases lexLt_trichotomy (strCp a.name) (strCp b.name) with h | h | h
    · exact h
    · exact absurd (strCp_inj h) hne
    · exfalso
      have h2 : lexLe (strCp a.name) (strCp b.name) = true := hab
      rw [lexLe, h] at h2
      simp at h2
  have hlt₁ : l₁.Pairwise (fun a b => lexLt (strCp a.name) (strCp b.name) = true) :=
    (hs₁.and hne₁).imp (fun h => strict _ _ h.1 h.2)
  have hlt₂ : l₂.Pairwise (fun a b => lexLt (strCp a.name) (strCp b.name) = true) :=
    (hs₂.and hne₂).imp (fun h => strict _ _ h.1 h.2)
  exact List.eq_of_perm_of_sorted hp hlt₁ hlt₂

/-- Concatenation of a list of records, as the spec describes the
serialized tree ("a sequence of `mode SP name NUL hash NEWLINE` records"). -/
def concatRecords (l : List String) : String := l.foldr (· ++ ·) ""

theorem serializeTree_go (l : List TreeEntry) :
    ∀ acc : String, l.foldl (fun acc e => acc ++ recordStr e) acc =
      acc ++ concatRecords (l.map recordStr) := by
  induction l with
  | nil => intro acc; simp [concatRecords, String.append_empty]
  | cons e rest ih =>
      intro acc
      simp only [List.foldl, List.map, ih, concatRecords, List.foldr]
      rw [String.append_assoc]

theorem serializeTree_eq_records (l : List TreeEntry) :
    serializeTree l = concatRecords (l.map recordStr) := by
  have := serializeTree_go l ""
  rwa [String.empty_append] at this

/-- C3 counterexample: two staged paths `a/f.txt` and `b/f.txt` share the
basename `f.txt`; `_create_tree` keeps both entries, so the serialized tree
contains two records with the same name — nothing is overwritten. -/
theorem tree_duplicate_names_counterexample :
    treeEntries [("a/f.txt", ⟨"a/f.txt", "h1", "644", 1, 0⟩),
                 ("b/f.txt", ⟨"b/f.txt", "h2", "644", 1, 0⟩)] =
      [⟨"644", "f.txt", "h1", "blob"⟩, ⟨"644", "f.txt", "h2", "blob"⟩] ∧
    ¬ ((treeEntries [("a/f.txt", ⟨"a/f.txt", "h1", "644", 1, 0⟩),
                     ("b/f.txt", ⟨"b/f.txt", "h2", "644", 1, 0⟩)]).map
        TreeEntry.name).Nodup := by
  constructor
  · decide
  · decide

/-- C3 (amended): the tree builder emits exactly one entry per staged path
and never collapses entries: the multiset of emitted names is exactly the
multiset of basenames of the staged paths, so staged paths sharing a last
segment yield several records with equal names in one serialized tree. -/
theorem tree_builder_keeps_duplicate_names (staged : List (String × FileEntry)) :
    (treeEntries staged).length = staged.length ∧
    ((treeEntries staged).map TreeEntry.name).Perm
      (staged.map (fun pe => basename pe.1)) := by
  constructor
  · show (sortByName (staged.map toTreeEntry)).length = staged.length
    rw [(sortByName_perm (staged.map toTreeEntry)).length_eq, List.length_map]
  · have h := (sortByName_perm (staged.map toTreeEntry)).map TreeEntry.name
    rw [List.map_map] at h
    exact h

/-- C6: the tree builder emits one `TreeEntry` per staged entry named by the
last path segment, sorts ascending by name, serializes each entry as
`mode SP name NUL hash NEWLINE`, stores the buffer as a tree object, and —
when basenames do not collide — the result does not depend on the staging
order. -/
theorem tree_builder_sorted_serialization (st : Store)
    (s₁ s₂ : List (String × FileEntry)) :
    (treeEntries s₁).Perm (s₁.map toTreeEntry) ∧
    (treeEntries s₁).Pairwise (fun a b => nameLe a b = true) ∧
    serializeTree (treeEntries s₁) = concatRecords ((treeEntries s₁).map recordStr) ∧
    createTree st s₁ =
      storeObject st (utf8Encode (strCp (serializeTree (treeEntries s₁)))) "tree" ∧
    (s₁.Perm s₂ → (s₁.map (fun pe => basename pe.1)).Nodup →
      treeEntries s₁ = treeEntries s₂) := by
  refine ⟨sortByName_perm _, sortByName_pairwise _, serializeTree_eq_records _, rfl, ?_⟩
  intro hp hn
  have hmap : (s₁.map toTreeEntry).Perm (s₂.map toTreeEntry) := hp.map toTreeEntry
  have hperm : (treeEntries s₁).Perm (treeEntries s₂) :=
    ((sortByName_perm _).trans hmap).trans (sortByName_perm _).symm
  have hnames : ((treeEntries s₁).map TreeEntry.name).Perm
      (s₁.map (fun pe => basename pe.1)) := by
    have h := (sortByName_perm (s₁.map toTreeEntry)).map TreeEntry.name
    rw [List.map_map] at h
    exact h
  exact sorted_nodup_eq _ _ hperm (sortByName_pairwise _) (sortByName_pairwise _)
    (hnames.nodup_iff.mpr hn)

/-- Witness for C6: two staged files in reversed staging orders produce the
same sorted tree. -/
theorem tree_builder_sorted_serialization_witness :
    ([("b.txt", ⟨"b.txt", "h1", "644", 1, 0⟩),
      ("a.txt", ⟨"a.txt", "h2", "644", 2, 0⟩)] : List (String × FileEntry)).Perm
      [("a.txt", ⟨"a.txt", "h2", "644", 2, 0⟩), ("b.txt", ⟨"b.txt", "h1", "644", 1, 0⟩)] ∧
    (([("b.txt", ⟨"b.txt", "h1", "644", 1, 0⟩),
       ("a.txt", ⟨"a.txt", "h2", "644", 2, 0⟩)] : List (String × FileEntry)).map
      (fun pe => basename pe.1)).Nodup ∧
    treeEntries [("b.txt", ⟨"b.txt", "h1", "644", 1, 0⟩),
                 ("a.txt", ⟨"a.txt", "h2", "644", 2, 0⟩)] =
      treeEntries [("a.txt", ⟨"a.txt", "h2", "644", 2, 0⟩),
                   ("b.txt", ⟨"b.txt", "h1", "644", 1, 0⟩)] :=
  ⟨by decide, by decide,
    (tree_builder_sorted_serialization [] _ _).2.2.2.2 (by decide) (by decide)⟩

/-! ## Commit serialization and parsing
(`Repository._serialize_commit` and `Repository._load_commit` in src/main.py)

Commit fields are Python strings, modelled as lists of code points. -/

/-- The `CommitObject` dataclass as `commit()` builds it. -/
structure CommitObject : Type where
  tree : List Nat
  parent : Option (List Nat)
  author : List Nat
  committer : List Nat
  timestamp : ℚ
  message : List Nat
  deriving DecidableEq, Repr

/-- The fields `_load_commit` reconstructs; any header field can come back
absent (`None`). -/
structure LoadedCommit : Type where
  tree : Option (List Nat)
  parent : Option (List Nat)
  author : Option (List Nat)
  committer : Option (List Nat)
  timestamp : Option ℚ
  message : List Nat
  deriving DecidableEq, Repr

/-- `Repository._serialize_commit` (before `.encode()`): note that an empty
parent string is falsy in Python, so `if commit.parent:` drops it. -/
def serializeCommit (c : CommitObject) : List Nat :=
  strCp "tree " ++ c.tree ++ [10] ++
  (match c.parent with
   | some p => if p = [] then [] else strCp "parent " ++ p ++ [10]
   | none => []) ++
  strCp "author " ++ c.author ++ [32] ++ intDec (pyInt c.timestamp) ++
    strCp " +0000" ++ [10] ++
  strCp "committer " ++ c.committer ++ [32] ++ intDec (pyInt c.timestamp) ++
    strCp " +0000" ++ [10] ++
  [10] ++ c.message ++ [10]

/-- `content.split('\n')`: split at every newline, keeping empty pieces. -/
def splitOnNl : List Nat → List (List Nat)
  | [] => [[]]
  | b :: rest =>
      if b = 10 then [] :: splitOnNl rest
      else
        match splitOnNl rest with
        | [] => [[b]]
        | g :: gs => (b :: g) :: gs

/-- `'\n'.join(lines)`. -/
def joinNl : List (List Nat) → List Nat
  | [] => []
  | [x] => x
  | x :: y :: ys => x ++ 10 :: joinNl (y :: ys)

/-- `line.rsplit(' ', 2)`. -/
def rsplit2 (l : List Nat) : List (List Nat) :=
  match splitFirst 32 l.reverse with
  | none => [l]
  | some (a, r) =>
      match splitFirst 32 r with
      | none => [r.reverse, a.reverse]
      | some (b, r2) => [r2.reverse, b.reverse, a.reverse]

/-- `s.strip()` (ASCII whitespace). -/
def stripWs (l : List Nat) : List Nat :=
  ((l.dropWhile isPyWs).reverse.dropWhile isPyWs).reverse

/-- `line.startswith(pre)`. -/
def startsWith (pre l : List Nat) : Bool := decide (l.take pre.length = pre)

/-- The accumulator of `_load_commit`'s line loop. -/
structure ParseSt : Type where
  tree : Option (List Nat)
  parent : Option (List Nat)
  author : Option (List Nat)
  committer : Option (List Nat)
  timestamp : Option ℚ
  messageLines : List (List Nat)
  inMessage : Bool
  deriving DecidableEq, Repr

def initSt : ParseSt := ⟨none, none, none, none, none, [], false⟩

/-- One iteration of `_load_commit`'s `for line in lines` loop. -/
def processLine (st : ParseSt) (line : List Nat) : Except PyErr ParseSt :=
  if st.inMessage then .ok { st with messageLines := st.messageLines ++ [line] }
  else if startsWith (strCp "tree ") line then .ok { st with tree := some (line.drop 5) }
  else if startsWith (strCp "parent ") line then
    .ok { st with parent := some (line.drop 7) }
  else if startsWith (strCp "author ") line then
    match rsplit2 (line.drop 7) with
    | p0 :: p1 :: _ =>
        match pyFloat p1 with
        | some ts => .ok { st with author := some p0, timestamp := some ts }
        | none => .error .valueError
    | _ => .error .indexError
  else if startsWith (strCp "committer ") line then
    match rsplit2 (line.drop 10) with
    | p0 :: _ => .ok { st with committer := some p0 }
    | [] => .error .indexError
  else if line = [] then .ok { st with inMessage := true }
  else .ok st

/-- The whole parse of `_load_commit` on decoded content. -/
def parseCommitCps (cps : List Nat) : Except PyErr LoadedCommit :=
  ((splitOnNl cps).foldlM processLine initSt).map fun st =>
    ⟨st.tree, st.parent, st.author, st.committer, st.timestamp,
     stripWs (joinNl st.messageLines)⟩

/-- `Repository._load_commit`: fetch, check the type tag, decode, parse. -/
def loadCommit (st : Store) (h : String) : Except PyErr LoadedCommit :=
  match getObject st h with
  | .error e => .error e
  | .ok (ty, content) =>
      if ty = strCp "commit" then
        match utf8Decode content with
        | none => .error .unicodeDecodeError
        | some cps => parseCommitCps cps
      else .error .notACommit

theorem splitOnNl_ne_nil (l : List Nat) : splitOnNl l ≠ [] := by
  cases l with
  | nil => simp [splitOnNl]
  | cons b rest =>
      by_cases h : b = 10
      · simp [splitOnNl, h]
      · simp only [splitOnNl, h, if_false]
        match hs : splitOnNl rest with
        | [] => simp
        | g :: gs => simp

theorem splitOnNl_no_nl (A : List Nat) (h : 10 ∉ A) : splitOnNl A = [A] := by
  induction A with
  | nil => rfl
  | cons b rest ih =>
      have hb : b ≠ 10 := fun hh => h (hh ▸ List.mem_cons_self _ _)
      simp only [splitOnNl, hb, if_false]
      rw [ih (fun hh => h (List.mem_cons_of_mem _ hh))]

theorem splitOnNl_append (A B : List Nat) (h : 10 ∉ A) :
    splitOnNl (A ++ 10 :: B) = A :: splitOnNl B := by
  induction A with
  | nil => simp [splitOnNl]
  | cons b rest ih =>
      have hb : b ≠ 10 := fun hh => h (hh ▸ List.mem_cons_self _ _)
      simp only [List.cons_append, splitOnNl, hb, if_false, List.append_eq,
        ih (fun hh => h (List.mem_cons_of_mem _ hh))]

theorem joinNl_splitOnNl (l : List Nat) : joinNl (splitOnNl l) = l := by
  induction l with
  | nil => rfl
  | cons b rest ih =>
      by_cases h : b = 10
      · subst h
        simp only [splitOnNl, if_pos rfl]
        match hs : splitOnNl rest with
        | [] => exact absurd hs (splitOnNl_ne_nil rest)
        | g :: gs =>
            rw [hs] at ih
            simp [joinNl, ih]
      · simp only [splitOnNl, h, if_false]
        match hs : splitOnNl rest with
        | [] => exact absurd hs (splitOnNl_ne_nil rest)
        | g :: gs =>
            rw [hs] at ih
            cases gs with
            | nil => simp [joinNl] at ih ⊢; rw [ih]
            | cons g2 gs2 =>
                simp only [joinNl] at ih ⊢
                rw [List.cons_append, ih]

/-- A strip-fixed message absorbs the final newline the serializer adds. -/
theorem stripWs_append_nl (m : List Nat) (h : stripWs m = m) :
    stripWs (m ++ [10]) = m := by
  have hfront : m.dropWhile isPyWs = m := by
    have hsuffix : m.dropWhile isPyWs <:+ m := List.dropWhile_suffix _
    have hsuffix2 : (m.dropWhile isPyWs).reverse.dropWhile isPyWs <:+
        (m.dropWhile isPyWs).reverse := List.dropWhile_suffix _
    have hlen : ((m.dropWhile isPyWs).reverse.dropWhile isPyWs).length = m.length := by
      have := congrArg List.length h
      simpa [stripWs] using this
    have hlen2 : (m.dropWhile isPyWs).length = m.length := by
      have h1 := hsuffix.length_le
      have h2 := hsuffix2.length_le
      simp only [List.length_reverse] at h2
      omega
    exact hsuffix.eq_of_length hlen2
  have hback : m.reverse.dropWhile isPyWs = m.reverse := by
    have := h
    rw [stripWs, hfront] at this
    have := congrArg List.reverse this
    simpa using this
  cases m with
  | nil => decide
  | cons x xs =>
      have hx : isPyWs x = false := by
        by_contra hc
        have hxt : isPyWs x = true := by
          cases hh : isPyWs x
          · exact absurd hh hc
          · rfl
        have := congrArg List.length hfront
        rw [List.dropWhile_cons, hxt] at this
        simp only [if_true] at this
        have hle := (List.dropWhile_suffix (l := xs) isPyWs).length_le
        simp at this
        omega
      rw [stripWs, List.cons_append, List.dropWhile_cons, hx]
      simp only [Bool.false_eq_true, if_false]
      have hrev : (x :: (xs ++ [10])).reverse = 10 :: (x :: xs).reverse := by
        simp
      rw [hrev, List.dropWhile_cons]
      have h10 : isPyWs 10 = true := rfl
      rw [h10]
      simp only [if_true]
      rw [hback]
      simp

theorem rsplit2_parts (A B C : List Nat) (hB : 32 ∉ B) (hC : 32 ∉ C) :
    rsplit2 (A ++ 32 :: (B ++ 32 :: C)) = [A, B, C] := by
  have hrev : (A ++ 32 :: (B ++ 32 :: C)).reverse =
      C.reverse ++ 32 :: (B.reverse ++ 32 :: A.reverse) := by
    simp
  rw [rsplit2, hrev]
  simp only [splitFirst_append 32 C.reverse _ (by simpa using hC),
    splitFirst_append 32 B.reverse _ (by simpa using hB)]
  simp

theorem intDec_mem (z : ℤ) : ∀ b ∈ intDec z, b = 45 ∨ (48 ≤ b ∧ b ≤ 57) := by
  intro b hb
  rw [intDec] at hb
  by_cases hz : z < 0
  · simp only [hz, if_true, List.mem_cons] at hb
    rcases hb with hb | hb
    · exact Or.inl hb
    · exact Or.inr (natDec_digits _ b hb)
  · simp only [hz, if_false] at hb
    exact Or.inr (natDec_digits _ b hb)

theorem take_length_append {α : Type} (A X : List α) : (A ++ X).take A.length = A := by
  induction A with
  | nil => rfl
  | cons a as ih => simp [ih]

theorem drop_length_append {α : Type} (A X : List α) : (A ++ X).drop A.length = X := by
  induction A with
  | nil => rfl
  | cons a as ih => simp [ih]

theorem startsWith_same (pre X : List Nat) : startsWith pre (pre ++ X) = true := by
  simp [startsWith, take_length_append]

/-- `startswith` only inspects a prefix of the line. -/
theorem startsWith_trunc (pre A X : List Nat) (h : pre.length ≤ A.length) :
    startsWith pre (A ++ X) = startsWith pre A := by
  simp only [startsWith, decide_eq_decide]
  rw [List.take_append_of_le_length h]

theorem processLine_tree (st : ParseSt) (X : List Nat) (h : st.inMessage = false) :
    processLine st (strCp "tree " ++ X) = .ok { st with tree := some X } := by
  have h5 : (5 : Nat) = (strCp "tree ").length := rfl
  rw [processLine, if_neg (by rw [h]; exact Bool.false_ne_true),
    if_pos (startsWith_same _ _), h5, drop_length_append]

theorem processLine_parent (st : ParseSt) (X : List Nat) (h : st.inMessage = false) :
    processLine st (strCp "parent " ++ X) = .ok { st with parent := some X } := by
  have h7 : (7 : Nat) = (strCp "parent ").length := rfl
  have hnotree : startsWith (strCp "tree ") (strCp "parent " ++ X) = false := by
    rw [startsWith_trunc _ _ _ (by decide)]
    decide
  rw [processLine, if_neg (by rw [h]; exact Bool.false_ne_true),
    if_neg (by rw [hnotree]; exact Bool.false_ne_true),
    if_pos (startsWith_same _ _), h7, drop_length_append]

theorem processLine_author (st : ParseSt) (auth : List Nat) (z : ℤ)
    (h : st.inMessage = false) :
    processLine st (strCp "author " ++ (auth ++ 32 :: (intDec z ++ 32 :: strCp "+0000"))) =
      .ok { st with author := some auth, timestamp := some ((z : ℤ) : ℚ) } := by
  have h7 : (7 : Nat) = (strCp "author ").length := rfl
  have hnotree : startsWith (strCp "tree ") (strCp "author " ++
      (auth ++ 32 :: (intDec z ++ 32 :: strCp "+0000"))) = false := by
    rw [startsWith_trunc _ _ _ (by decide)]
    decide
  have hnoparent : startsWith (strCp "parent ") (strCp "author " ++
      (auth ++ 32 :: (intDec z ++ 32 :: strCp "+0000"))) = false := by
    rw [startsWith_trunc _ _ _ (by decide)]
    decide
  have hsplit : rsplit2 ((strCp "author " ++
      (auth ++ 32 :: (intDec z ++ 32 :: strCp "+0000"))).drop 7) =
      [auth, intDec z, strCp "+0000"] := by
    rw [h7, drop_length_append]
    exact rsplit2_parts auth (intDec z) (strCp "+0000")
      (fun hm => by rcases intDec_mem z 32 hm with h | h <;> omega)
      (by decide)
  rw [processLine, if_neg (by rw [h]; exact Bool.false_ne_true),
    if_neg (by rw [hnotree]; exact Bool.false_ne_true),
    if_neg (by rw [hnoparent]; exact Bool.false_ne_true),
    if_pos (startsWith_same _ _), hsplit]
  simp only [pyFloat_intDec]

theorem processLine_committer (st : ParseSt) (comm : List Nat) (z : ℤ)
    (h : st.inMessage = false) :
    processLine st (strCp "committer " ++
        (comm ++ 32 :: (intDec z ++ 32 :: strCp "+0000"))) =
      .ok { st with committer := some comm } := by
  have h10 : (10 : Nat) = (strCp "committer ").length := rfl
  have hnotree : startsWith (strCp "tree ") (strCp "committer " ++
      (comm ++ 32 :: (intDec z ++ 32 :: strCp "+0000"))) = false := by
    rw [startsWith_trunc _ _ _ (by decide)]
    decide
  have hnoparent : startsWith (strCp "parent ") (strCp "committer " ++
      (comm ++ 32 :: (intDec z ++ 32 :: strCp "+0000"))) = false := by
    rw [startsWith_trunc _ _ _ (by decide)]
    decide
  have hnoauthor : startsWith (strCp "author ") (strCp "committer " ++
      (comm ++ 32 :: (intDec z ++ 32 :: strCp "+0000"))) = false := by
    rw [startsWith_trunc _ _ _ (by decide)]
    decide
  have hsplit : rsplit2 ((strCp "committer " ++
      (comm ++ 32 :: (intDec z ++ 32 :: strCp "+0000"))).drop 10) =
      [comm, intDec z, strCp "+0000"] := by
    rw [h10, drop_length_append]
    exact rsplit2_parts comm (intDec z) (strCp "+0000")
      (fun hm => by rcases intDec_mem z 32 hm with h | h <;> omega)
      (by decide)
  rw [processLine, if_neg (by rw [h]; exact Bool.false_ne_true),
    if_neg (by rw [hnotree]; exact Bool.false_ne_true),
    if_neg (by rw [hnoparent]; exact Bool.false_ne_true),
    if_neg (by rw [hnoauthor]; exact Bool.false_ne_true),
    if_pos (startsWith_same _ _), hsplit]

theorem processLine_blank (st : ParseSt) (h : st.inMessage = false) :
    processLine st [] = .ok { st with inMessage := true } := by
  rw [processLine, if_neg (by rw [h]; exact Bool.false_ne_true)]
  have t1 : strCp "tree " ≠ [] := by decide
  have t2 : strCp "parent " ≠ [] := by decide
  have t3 : strCp "author " ≠ [] := by decide
  have t4 : strCp "committer " ≠ [] := by decide
  simp [startsWith, t1, t2, t3, t4]

theorem foldlM_message (lines : List (List Nat)) : ∀ (st : ParseSt),
    st.inMessage = true →
    lines.foldlM processLine st =
      .ok { st with messageLines := st.messageLines ++ lines } := by
  induction lines with
  | nil => intro st _; simp [List.foldlM, pure, Except.pure]
  | cons l ls ih =>
      intro st h
      have hstep : processLine st l =
          .ok { st with messageLines := st.messageLines ++ [l] } := by
        rw [processLine, if_pos h]
      rw [List.foldlM_cons, hstep]
      show ls.foldlM processLine { st with messageLines := st.messageLines ++ [l] } = _
      rw [ih _ (by simpa using h)]
      simp

theorem except_bind_ok {e a b : Type} (x : a) (f : a → Except e b) :
    ((Except.ok x : Except e a) >>= f) = f x := rfl

theorem except_map_ok {e a b : Type} (g : a → b) (x : a) :
    Except.map g (Except.ok x : Except e a) = .ok (g x) := rfl

/-- Parsing undoes serialization: for a commit whose tree, author, committer
and (when present, nonempty) parent contain no newline, and whose message is
strip-fixed, `_load_commit`'s parser recovers every field, the timestamp
truncated to whole seconds. -/
theorem parseCommit_serializeCommit (c : CommitObject)
    (hT : 10 ∉ c.tree) (hA : 10 ∉ c.author) (hC : 10 ∉ c.committer)
    (hM : stripWs c.message = c.message)
    (hP : ∀ p, c.parent = some p → p ≠ [] ∧ 10 ∉ p) :
    parseCommitCps (serializeCommit c) =
      .ok ⟨some c.tree, c.parent, some c.author, some c.committer,
           some ((pyInt c.timestamp : ℤ) : ℚ), c.message⟩ := by
  have hdig10 : (10 : Nat) ∉ intDec (pyInt c.timestamp) := by
    intro hm
    rcases intDec_mem _ 10 hm with h | h <;> omega
  have h10tree : (10 : Nat) ∉ strCp "tree " ++ c.tree := by
    intro hm
    rcases List.mem_append.mp hm with hm | hm
    · revert hm; decide
    · exact hT hm
  have h10auth : (10 : Nat) ∉ strCp "author " ++
      (c.author ++ 32 :: (intDec (pyInt c.timestamp) ++ 32 :: strCp "+0000")) := by
    intro hm
    rcases List.mem_append.mp hm with hm | hm
    · revert hm; decide
    · rcases List.mem_append.mp hm with hm | hm
      · exact hA hm
      · rcases List.mem_cons.mp hm with hm | hm
        · cases hm
        · rcases List.mem_append.mp hm with hm | hm
          · exact hdig10 hm
          · rcases List.mem_cons.mp hm with hm | hm
            · cases hm
            · revert hm; decide
  have h10comm : (10 : Nat) ∉ strCp "committer " ++
      (c.committer ++ 32 :: (intDec (pyInt c.timestamp) ++ 32 :: strCp "+0000")) := by
    intro hm
    rcases List.mem_append.mp hm with hm | hm
    · revert hm; decide
    · rcases List.mem_append.mp hm with hm | hm
      · exact hC hm
      · rcases List.mem_cons.mp hm with hm | hm
        · cases hm
        · rcases List.mem_append.mp hm with hm | hm
          · exact hdig10 hm
          · rcases List.mem_cons.mp hm with hm | hm
            · cases hm
            · revert hm; decide
  have htail : ∀ X : List Nat, splitOnNl ((10 : Nat) :: X) = [] :: splitOnNl X := by
    intro X
    simp [splitOnNl]
  rcases hp : c.parent with _ | p
  · have e1 : serializeCommit c =
        (strCp "tree " ++ c.tree) ++ 10 ::
        ((strCp "author " ++
          (c.author ++ 32 :: (intDec (pyInt c.timestamp) ++ 32 :: strCp "+0000"))) ++ 10 ::
        ((strCp "committer " ++
          (c.committer ++ 32 :: (intDec (pyInt c.timestamp) ++ 32 :: strCp "+0000"))) ++ 10 ::
        (10 :: (c.message ++ [10])))) := by
      rw [serializeCommit, hp]
      have hsp : strCp " +0000" = 32 :: strCp "+0000" := by decide
      simp [hsp, List.append_assoc]
    have hlines : splitOnNl (serializeCommit c) =
        (strCp "tree " ++ c.tree) ::
        (strCp "author " ++
          (c.author ++ 32 :: (intDec (pyInt c.timestamp) ++ 32 :: strCp "+0000"))) ::
        (strCp "committer " ++
          (c.committer ++ 32 :: (intDec (pyInt c.timestamp) ++ 32 :: strCp "+0000"))) ::
        [] :: splitOnNl (c.message ++ [10]) := by
      rw [e1, splitOnNl_append _ _ h10tree, splitOnNl_append _ _ h10auth,
        splitOnNl_append _ _ h10comm, htail]
    rw [parseCommitCps, hlines]
    simp only [List.foldlM_cons, except_bind_ok, initSt, processLine_tree,
      processLine_author, processLine_committer, processLine_blank, foldlM_message,
      except_map_ok, List.nil_append]
    rw [joinNl_splitOnNl, stripWs_append_nl _ hM]
  · obtain ⟨hpne, hp10⟩ := hP p hp
    have h10par : (10 : Nat) ∉ strCp "parent " ++ p := by
      intro hm
      rcases List.mem_append.mp hm with hm | hm
      · revert hm; decide
      · exact hp10 hm
    have e1 : serializeCommit c =
        (strCp "tree " ++ c.tree) ++ 10 ::
        ((strCp "parent " ++ p) ++ 10 ::
        ((strCp "author " ++
          (c.author ++ 32 :: (intDec (pyInt c.timestamp) ++ 32 :: strCp "+0000"))) ++ 10 ::
        ((strCp "committer " ++
          (c.committer ++ 32 :: (intDec (pyInt c.timestamp) ++ 32 :: strCp "+0000"))) ++ 10 ::
        (10 :: (c.message ++ [10]))))) := by
      rw [serializeCommit, hp]
      have hsp : strCp " +0000" = 32 :: strCp "+0000" := by decide
      simp [hsp, hpne, List.append_assoc]
    have hlines : splitOnNl (serializeCommit c) =
        (strCp "tree " ++ c.tree) ::
        (strCp "parent " ++ p) ::
        (strCp "author " ++
          (c.author ++ 32 :: (intDec (pyInt c.timestamp) ++ 32 :: strCp "+0000"))) ::
        (strCp "committer " ++
          (c.committer ++ 32 :: (intDec (pyInt c.timestamp) ++ 32 :: strCp "+0000"))) ::
        [] :: splitOnNl (c.message ++ [10]) := by
      rw [e1, splitOnNl_append _ _ h10tree, splitOnNl_append _ _ h10par,
        splitOnNl_append _ _ h10auth, splitOnNl_append _ _ h10comm, htail]
    rw [parseCommitCps, hlines]
    simp only [List.foldlM_cons, except_bind_ok, initSt, processLine_tree,
      processLine_parent, processLine_author, processLine_committer, processLine_blank,
      foldlM_message, except_map_ok, List.nil_append]
    rw [joinNl_splitOnNl, stripWs_append_nl _ hM]

/-- All strings of a commit built from Python strings consist of Unicode
scalar values, hence so does its serialization. -/
theorem serializeCommit_valid (c : CommitObject)
    (vT : ∀ b ∈ c.tree, ValidCp b) (vA : ∀ b ∈ c.author, ValidCp b)
    (vC : ∀ b ∈ c.committer, ValidCp b) (vM : ∀ b ∈ c.message, ValidCp b)
    (vP : ∀ p, c.parent = some p → ∀ b ∈ p, ValidCp b) :
    ∀ b ∈ serializeCommit c, ValidCp b := by
  intro b hb
  have vDig : ∀ x ∈ intDec (pyInt c.timestamp), ValidCp x := by
    intro x hx
    rcases intDec_mem _ x hx with h | h
    · subst h; decide
    · exact ⟨by omega, by omega⟩
  have vL1 : ∀ x ∈ strCp "tree ", ValidCp x := by decide
  have vL2 : ∀ x ∈ strCp "parent ", ValidCp x := by decide
  have vL3 : ∀ x ∈ strCp "author ", ValidCp x := by decide
  have vL4 : ∀ x ∈ strCp "committer ", ValidCp x := by decide
  have vL5 : ∀ x ∈ strCp " +0000", ValidCp x := by decide
  rcases hpp : c.parent with _ | p
  · rw [serializeCommit, hpp] at hb
    simp only [List.mem_append, List.mem_cons, List.mem_singleton,
      List.not_mem_nil, or_false, false_or] at hb
    casesm* _ ∨ _ <;>
      first
        | exact vL1 b (by assumption)
        | exact vL2 b (by assumption)
        | exact vL3 b (by assumption)
        | exact vL4 b (by assumption)
        | exact vL5 b (by assumption)
        | exact vT b (by assumption)
        | exact vA b (by assumption)
        | exact vC b (by assumption)
        | exact vM b (by assumption)
        | exact vDig b (by assumption)
        | (subst b; decide)
  · have vPp : ∀ x ∈ p, ValidCp x := vP p hpp
    rw [serializeCommit, hpp] at hb
    by_cases hpe : p = []
    · subst hpe
      simp only [eq_self_iff_true, if_true, List.mem_append, List.mem_cons,
        List.mem_singleton, List.not_mem_nil, or_false, false_or] at hb
      casesm* _ ∨ _ <;>
        first
          | exact vL1 b (by assumption)
          | exact vL2 b (by assumption)
          | exact vL3 b (by assumption)
          | exact vL4 b (by assumption)
          | exact vL5 b (by assumption)
          | exact vT b (by assumption)
          | exact vA b (by assumption)
          | exact vC b (by assumption)
          | exact vM b (by assumption)
          | exact vDig b (by assumption)
          | (subst b; decide)
    · simp only [if_neg hpe, List.mem_append, List.mem_cons, List.mem_singleton,
        List.not_mem_nil, or_false, false_or] at hb
      casesm* _ ∨ _ <;>
        first
          | exact vL1 b (by assumption)
          | exact vL2 b (by assumption)
          | exact vL3 b (by assumption)
          | exact vL4 b (by assumption)
          | exact vL5 b (by assumption)
          | exact vT b (by assumption)
          | exact vA b (by assumption)
          | exact vC b (by assumption)
          | exact vM b (by assumption)
          | exact vDig b (by assumption)
          | exact vPp b (by assumption)
          | (subst b; decide)

/-- C9 (amended): serializing a commit with `_serialize_commit`, storing it,
and loading it back with `_load_commit` recovers the tree, parent, author,
committer and message, with the timestamp truncated to whole seconds
(`float(int(timestamp))`) — provided the tree, author and committer contain
no newline, the message equals its own strip, and the parent, when present,
is nonempty and newline-free (an empty parent string is falsy in Python and
is silently dropped, and embedded newlines corrupt the line format, which is
what the counterexample exhibits). -/
theorem loadCommit_roundtrip (c : CommitObject) (st : Store)
    (vT : ∀ b ∈ c.tree, ValidCp b) (vA : ∀ b ∈ c.author, ValidCp b)
    (vC : ∀ b ∈ c.committer, ValidCp b) (vM : ∀ b ∈ c.message, ValidCp b)
    (vP : ∀ p, c.parent = some p → ∀ b ∈ p, ValidCp b)
    (hT : 10 ∉ c.tree) (hA : 10 ∉ c.author) (hC : 10 ∉ c.committer)
    (hM : stripWs c.message = c.message)
    (hP : ∀ p, c.parent = some p → p ≠ [] ∧ 10 ∉ p) :
    loadCommit (storeObject st (utf8Encode (serializeCommit c)) "commit").2
        (storeObject st (utf8Encode (serializeCommit c)) "commit").1 =
      .ok ⟨some c.tree, c.parent, some c.author, some c.committer,
           some ((pyInt c.timestamp : ℤ) : ℚ), c.message⟩ := by
  have hget := store_get_roundtrip st (utf8Encode (serializeCommit c)) "commit"
    goodTag_commit
  simp only [loadCommit, hget, eq_self_iff_true, if_true,
    utf8Decode_encode _ (serializeCommit_valid c vT vA vC vM vP)]
  exact parseCommit_serializeCommit c hT hA hC hM hP

/-- C9 counterexample: a commit whose parent is the empty string satisfies
the claim's hypotheses (author and committer newline-free, message
strip-fixed), yet the round trip does not recover the parent: Python's
`if commit.parent:` treats `""` as absent, so the loaded parent is `None`. -/
theorem commit_roundtrip_counterexample :
    ((10 : Nat) ∉ ([97] : List Nat)) ∧ ((10 : Nat) ∉ ([98] : List Nat)) ∧
    stripWs [109] = [109] ∧
    loadCommit (storeObject [] (utf8Encode (serializeCommit
        ⟨[116], some [], [97], [98], 0, [109]⟩)) "commit").2
      (storeObject [] (utf8Encode (serializeCommit
        ⟨[116], some [], [97], [98], 0, [109]⟩)) "commit").1 =
      .ok ⟨some [116], none, some [97], some [98], some 0, [109]⟩ ∧
    (⟨[116], some [], [97], [98], 0, [109]⟩ : CommitObject).parent ≠
      (⟨some [116], none, some [97], some [98], some 0, [109]⟩ : LoadedCommit).parent := by
  refine ⟨by decide, by decide, by decide, by decide, by decide⟩

/-- Witness for C9 at a concrete commit with a multi-byte author name, a
nonempty parent, a multi-line message and a realistic timestamp. -/
theorem loadCommit_roundtrip_witness :
    loadCommit (storeObject [] (utf8Encode (serializeCommit
        ⟨[116, 104], some [112], [945, 98], [99], 1700000000,
          [109, 10, 110]⟩)) "commit").2
      (storeObject [] (utf8Encode (serializeCommit
        ⟨[116, 104], some [112], [945, 98], [99], 1700000000,
          [109, 10, 110]⟩)) "commit").1 =
      .ok ⟨some [116, 104], some [112], some [945, 98], some [99],
           some ((pyInt 1700000000 : ℤ) : ℚ), [109, 10, 110]⟩ :=
  loadCommit_roundtrip ⟨[116, 104], some [112], [945, 98], [99], 1700000000,
      [109, 10, 110]⟩ []
    (by decide) (by decide) (by decide) (by decide)
    (fun p hp => by injection hp with h; subst h; decide)
    (by decide) (by decide) (by decide) (by decide)
    (fun p hp => by injection hp with h; subst h; exact ⟨by decide, by decide⟩)

/-! ## History traversal (`Repository.log` in src/main.py)

The loop follows parent pointers, loading each commit with `_load_commit`
(modelled as the `load` parameter), and stops when the hash is falsy
(`None` or the empty string) or `limit` entries have been produced.  The
per-entry presentation string (author/date formatting) is elided: an entry
is the pair of the commit hash and the loaded commit. -/

def logLoop (load : List Nat → Except PyErr LoadedCommit) :
    Option (List Nat) → Nat → Except PyErr (List (List Nat × LoadedCommit))
  | _, 0 => .ok []
  | none, _ => .ok []
  | some h, limit + 1 =>
      if h = [] then .ok []
      else
        match load h with
        | .error e => .error e
        | .ok c =>
            match logLoop load c.parent limit with
            | .error e => .error e
            | .ok rest => .ok ((h, c) :: rest)

/-- `Chain load h cs`: starting from hash `h`, the loadable commits form
exactly the parent chain `cs`, ending at a root commit. -/
inductive Chain (load : List Nat → Except PyErr LoadedCommit) :
    List Nat → List (List Nat × LoadedCommit) → Prop
  | root (h : List Nat) (c : LoadedCommit) (hne : h ≠ [])
      (hl : load h = .ok c) (hp : c.parent = none) : Chain load h [(h, c)]
  | step (h : List Nat) (c : LoadedCommit) (h' : List Nat)
      (rest : List (List Nat × LoadedCommit)) (hne : h ≠ [])
      (hl : load h = .ok c) (hp : c.parent = some h')
      (hc : Chain load h' rest) : Chain load h ((h, c) :: rest)

theorem logLoop_none (load : List Nat → Except PyErr LoadedCommit) (n : Nat) :
    logLoop load none n = .ok [] := by
  cases n <;> rfl

/-- C7: over a parent chain of length `L`, the log loop yields the first
`min limit L` chain entries, newest first, stopping at the root commit. -/
theorem log_yields_chain_prefix (load : List Nat → Except PyErr LoadedCommit)
    (h : List Nat) (cs : List (List Nat × LoadedCommit)) (limit : Nat)
    (hc : Chain load h cs) :
    logLoop load (some h) limit = .ok (cs.take limit) ∧
    (cs.take limit).length = min limit cs.length := by
  induction hc generalizing limit with
  | root h c hne hl hp =>
      cases limit with
      | zero => exact ⟨rfl, rfl⟩
      | succ n =>
          refine ⟨?_, by simp⟩
          simp only [logLoop, hne, if_false, hl, hp, logLoop_none, List.take_succ_cons,
            List.take_nil]
  | step h c h' rest hne hl hp hcc ih =>
      cases limit with
      | zero => exact ⟨rfl, rfl⟩
      | succ n =>
          have hrec := ih n
          refine ⟨?_, ?_⟩
          · simp only [logLoop, hne, if_false, hl, hp, hrec.1, List.take_succ_cons]
          · have := hrec.2
            simp only [List.take_succ_cons, List.length_cons, List.length_take] at this ⊢
            omega

/-- A two-commit store for the C7 witness. -/
def logWitnessLoad (h : List Nat) : Except PyErr LoadedCommit :=
  if h = [97] then .ok ⟨none, some [98], none, none, none, []⟩
  else if h = [98] then .ok ⟨none, none, none, none, none, []⟩
  else .error .objectNotFound

/-- Witness for C7: a chain of length 2 under limit 5 yields both entries
in order, and `min 5 2 = 2`. -/
theorem log_yields_chain_prefix_witness :
    logLoop logWitnessLoad (some [97]) 5 =
      .ok [([97], ⟨none, some [98], none, none, none, []⟩),
           ([98], ⟨none, none, none, none, none, []⟩)] ∧
    ([([97], (⟨none, some [98], none, none, none, []⟩ : LoadedCommit)),
      ([98], ⟨none, none, none, none, none, []⟩)].take 5).length = min 5 2 := by
  have hchain : Chain logWitnessLoad [97]
      [([97], ⟨none, some [98], none, none, none, []⟩),
       ([98], ⟨none, none, none, none, none, []⟩)] :=
    Chain.step [97] ⟨none, some [98], none, none, none, []⟩ [98] _
      (by decide) rfl rfl
      (Chain.root [98] ⟨none, none, none, none, none, []⟩ (by decide) rfl rfl)
  have := log_yields_chain_prefix logWitnessLoad [97] _ 5 hchain
  exact ⟨this.1.trans (by decide), this.2⟩

/-! ## Index loading (`Index.load` in src/main.py)

The persisted index file is modelled *after* `json.load`: `none` means the
file does not exist, `some none` means it exists but is not valid JSON
(`json.load` raises `JSONDecodeError`, which `load` catches together with
`KeyError`), and `some (some j)` means it parsed to the JSON value `j`.
`FileEntry(**entry_data)` accepts values of any type but raises `TypeError`
unless the keyword set is exactly the five dataclass fields, and
`data.items()` raises `AttributeError` on a non-object — neither is caught. -/

inductive Json : Type where
  | null : Json
  | bool (b : Bool) : Json
  | num (q : ℚ) : Json
  | str (s : String) : Json
  | arr (items : List Json) : Json
  | obj (fields : List (String × Json)) : Json

/-- A `FileEntry` as reconstructed by `FileEntry(**entry_data)`: the
dataclass performs no type checking, so each field holds whatever JSON
value was persisted. -/
structure PyFileEntry : Type where
  path : Json
  hash : Json
  mode : Json
  size : Json
  mtime : Json

/-- `FileEntry(**entry_data)`: succeeds exactly when the keyword set is the
five dataclass fields, else `TypeError`. -/
def mkFileEntry (kvs : List (String × Json)) : Except PyErr PyFileEntry :=
  match lookupKV kvs "path", lookupKV kvs "hash", lookupKV kvs "mode",
        lookupKV kvs "size", lookupKV kvs "mtime" with
  | some p, some h, some m, some s, some t =>
      if kvs.length = 5 then .ok ⟨p, h, m, s, t⟩ else .error .typeError
  | _, _, _, _, _ => .error .typeError

def loadEntry (kv : String × Json) : Except PyErr (String × PyFileEntry) :=
  match kv.2 with
  | .obj fv => (mkFileEntry fv).map (fun e => (kv.1, e))
  | _ => .error .typeError

/-- `Index.load()`: missing file or invalid JSON degrade to the empty map;
other malformed persisted states raise uncaught exceptions. -/
def indexLoad : Option (Option Json) → Except PyErr (List (String × PyFileEntry))
  | none => .ok []
  | some none => .ok []
  | some (some (.obj kvs)) => kvs.mapM loadEntry
  | some (some _) => .error .attributeError

/-- C4 counterexample: an index file containing the valid JSON text `[]` is
malformed persisted state, yet `load()` raises an uncaught
`AttributeError` (from `data.items()`) instead of degrading to an empty
staging map. -/
theorem index_load_counterexample :
    indexLoad (some (some (Json.arr []))) = .error .attributeError ∧
    indexLoad (some (some (Json.arr []))) ≠
      .ok ([] : List (String × PyFileEntry)) :=
  ⟨rfl, fun h => Except.noConfusion h⟩

/-- C4 (amended): a missing index file, or one whose contents are not valid
JSON, yields an empty staging map rather than an error; but valid JSON that
is not an object of well-formed entries raises an uncaught exception. -/
theorem index_load_missing_or_bad_json_empty :
    indexLoad none = .ok [] ∧ indexLoad (some none) = .ok [] ∧
    indexLoad (some (some (Json.arr []))) = .error .attributeError ∧
    indexLoad (some (some (Json.obj [("a", Json.null)]))) = .error .typeError :=
  ⟨rfl, rfl, rfl, rfl⟩

/-! ## Repository directory model (`Repository.init` and
`Repository.checkout` in src/main.py)

The repository's on-disk state is a record of existing directories and
files (path ↦ bytes), all paths relative to the repository root. -/

structure FS : Type where
  dirs : List String
  files : List (String × List Nat)
  deriving DecidableEq, Repr

/-- `Repository.is_repository`: `.pygit` exists and is a directory. -/
def isRepository (fs : FS) : Bool := fs.dirs.contains ".pygit"

/-- `Path.exists()` for a file or directory path. -/
def pathExistsF (fs : FS) (p : String) : Bool :=
  (lookupKV fs.files p).isSome || fs.dirs.contains p

def headPath : String := ".pygit/HEAD"

def branchPath (name : String) : String := ".pygit/refs/heads/" ++ name

/-- `Repository.checkout`: check the repository, check the branch ref, then
rewrite HEAD (and nothing else). -/
def checkout (fs : FS) (name : String) : Except PyErr String × FS :=
  if ¬ isRepository fs then (.error .notARepository, fs)
  else if ¬ pathExistsF fs (branchPath name) then (.error .branchNotFound, fs)
  else (.ok ("Switched to branch '" ++ name ++ "'"),
        { fs with files := (setKey fs.files headPath
            (utf8Encode (strCp ("ref: refs/heads/" ++ name ++ "\n")))) })

/-- The configuration text `json.dump({"user": ...}, f, indent=2)` writes. -/
def configText : String :=
  "\x7b\n  \"user\": \x7b\n    \"name\": \"PyGit User\",\n    \"email\": \"user@pygit.local\"\n  \x7d\n\x7d"

/-- `Repository.init`: no-op with a message when the repository exists,
otherwise create the directory skeleton, HEAD and config. -/
def repoInit (root : String) (fs : FS) : String × FS :=
  if isRepository fs then ("Repository already exists at " ++ root, fs)
  else
    let fs1 : FS := { fs with dirs := (fs.dirs ++
      [".pygit", ".pygit/objects", ".pygit/refs", ".pygit/refs/heads"]) }
    let fs2 : FS := { fs1 with files := (setKey fs1.files headPath
      (utf8Encode (strCp "ref: refs/heads/main\n"))) }
    let fs3 : FS := { fs2 with files := (setKey fs2.files ".pygit/config"
      (utf8Encode (strCp configText))) }
    ("Initialized empty PyGit repository in " ++ root ++ "/.pygit", fs3)

/-- C8: in a repository, `checkout name` with an existing ref file succeeds
and rewrites only HEAD — every other path (working-tree files, objects,
branch refs, the index) reads back byte-identical — while with an absent
ref file it fails with `BranchNotFound` and changes nothing. -/
theorem checkout_rewrites_only_head (fs : FS) (name : String)
    (hrepo : isRepository fs = true) :
    (pathExistsF fs (branchPath name) = true →
      (checkout fs name).1 = .ok ("Switched to branch '" ++ name ++ "'") ∧
      lookupKV (checkout fs name).2.files headPath =
        some (utf8Encode (strCp ("ref: refs/heads/" ++ name ++ "\n"))) ∧
      (∀ p, p ≠ headPath →
        lookupKV (checkout fs name).2.files p = lookupKV fs.files p) ∧
      (checkout fs name).2.dirs = fs.dirs) ∧
    (pathExistsF fs (branchPath name) = false →
      checkout fs name = (.error .branchNotFound, fs)) := by
  constructor
  · intro hex
    rw [checkout, if_neg (by simp [hrepo]), if_neg (by simp [hex])]
    exact ⟨rfl, lookupKV_setKey_self _ _ _,
      fun p hp => lookupKV_setKey_ne _ _ _ _ hp, rfl⟩
  · intro hex
    rw [checkout, if_neg (by simp [hrepo]), if_pos (by simp [hex])]

/-- Witness for C8, both branches: a repository with branch `dev`, a
working-tree file and an object file. -/
theorem checkout_rewrites_only_head_witness :
    ((checkout ⟨[".pygit"], [(".pygit/refs/heads/dev", [97]), ("file.txt", [1, 2])]⟩
        "dev").1 = .ok "Switched to branch 'dev'" ∧
     lookupKV (checkout ⟨[".pygit"],
        [(".pygit/refs/heads/dev", [97]), ("file.txt", [1, 2])]⟩ "dev").2.files
        "file.txt" = some [1, 2] ∧
     lookupKV (checkout ⟨[".pygit"],
        [(".pygit/refs/heads/dev", [97]), ("file.txt", [1, 2])]⟩ "dev").2.files
        ".pygit/refs/heads/dev" = some [97]) ∧
    checkout ⟨[".pygit"], [("file.txt", [1, 2])]⟩ "dev" =
      (.error .branchNotFound, ⟨[".pygit"], [("file.txt", [1, 2])]⟩) := by
  have h1 := (checkout_rewrites_only_head
    ⟨[".pygit"], [(".pygit/refs/heads/dev", [97]), ("file.txt", [1, 2])]⟩ "dev"
    (by decide)).1 (by decide)
  have h2 := (checkout_rewrites_only_head
    ⟨[".pygit"], [("file.txt", [1, 2])]⟩ "dev" (by decide)).2 (by decide)
  refine ⟨⟨h1.1, ?_, ?_⟩, h2⟩
  · rw [h1.2.2.1 "file.txt" (by decide)]
    rfl
  · rw [h1.2.2.1 ".pygit/refs/heads/dev" (by decide)]
    rfl

/-- C10: `init()` on a directory that already is a repository returns the
"already exists" message and performs no writes: the filesystem state —
HEAD, config, refs, objects, index and working tree — is unchanged. -/
theorem init_existing_repository_noop (root : String) (fs : FS)
    (h : isRepository fs = true) :
    (repoInit root fs).1 = "Repository already exists at " ++ root ∧
    (repoInit root fs).2 = fs ∧
    (∀ p, lookupKV (repoInit root fs).2.files p = lookupKV fs.files p) ∧
    (repoInit root fs).2.dirs = fs.dirs := by
  rw [repoInit, if_pos h]
  exact ⟨rfl, rfl, fun p => rfl, rfl⟩

/-- Witness for C10 at a concrete repository state. -/
theorem init_existing_repository_noop_witness :
    (repoInit "/r" ⟨[".pygit"], [(".pygit/HEAD", [114]), ("a.txt", [5])]⟩).1 =
      "Repository already exists at /r" ∧
    (repoInit "/r" ⟨[".pygit"], [(".pygit/HEAD", [114]), ("a.txt", [5])]⟩).2 =
      ⟨[".pygit"], [(".pygit/HEAD", [114]), ("a.txt", [5])]⟩ := by
  have := init_existing_repository_noop "/r"
    ⟨[".pygit"], [(".pygit/HEAD", [114]), ("a.txt", [5])]⟩ (by decide)
  exact ⟨this.1, this.2.1⟩

end PyGit
